import Mathlib

/-!
# Verification of the DEX/CEX execution-cost comparison pipeline

A shallow embedding of the core logic of the repository: the three
venue-specific price normalizers, the mid-price resampler with forward
fill, the nearest-time join, the quantile bucketizer, and the keyset
pagination loops of the fetch scripts.  Numeric amounts are embedded as
exact rationals (the source works on IEEE doubles; every property checked
here concerns signs, exact ratios and means that are representation
independent).  DataFrame mutation is embedded with an explicit store of
frames addressed by references.
-/

set_option maxRecDepth 4000

namespace Hackathon

/-! ## Price normalizers (src/scripts/analyze.py)

Row-level formulas of `compute_realized_prices_uniswap_v2` (lines 55-59),
`compute_realized_prices_uniswap_v3` (lines 72-76) and
`compute_realized_prices_cowswap` (line 87).  `np.where(c, a, b)` applied
row-wise is an if-then-else on the values of the row. -/

/-- Row formula of `compute_realized_prices_uniswap_v2`:
`np.where(df["amount0Out"] > 0, df["amount1In"] / df["amount0Out"],
df["amount0In"] / df["amount1Out"])`. -/
def realized_price_uniswap_v2 (amount0In amount0Out amount1In amount1Out : ℚ) : ℚ :=
  if 0 < amount0Out then amount1In / amount0Out else amount0In / amount1Out

/-- Row formula of `compute_realized_prices_uniswap_v3`:
`np.where(df["amount0"] > 0, df["amount1"] / df["amount0"],
df["amount0"] / df["amount1"])`. -/
def realized_price_uniswap_v3 (amount0 amount1 : ℚ) : ℚ :=
  if 0 < amount0 then amount1 / amount0 else amount0 / amount1

/-- Row formula of `compute_realized_prices_cowswap`:
`df["buyAmount"] / df["sellAmount"]`. -/
def realized_price_cowswap (sellAmount buyAmount : ℚ) : ℚ :=
  buyAmount / sellAmount

/-- The price rule as worded by the spec (claim C1), for the v2 column
shape, with amount0 the base leg and amount1 the quote leg: if the
base-out amount is positive, quote-in / base-out; otherwise
quote-out / base-in.  Stated separately from the source formula so the
two can be compared. -/
def spec_realized_price_uniswap_v2 (amount0In amount0Out amount1In amount1Out : ℚ) : ℚ :=
  if 0 < amount0Out then amount1In / amount0Out else amount1Out / amount0In

/-- C1: the claim says that when the base-out amount is not positive the
realized price is quote-out divided by base-in.  The code divides the
other way around: on a WETH-in/USDT-out row (amount0In = 1,
amount0Out = 0, amount1In = 0, amount1Out = 2500) it yields
1/2500 instead of 2500, contradicting both the claim and the
docstring of the function itself "Realized price = USDT received / WETH sold". -/
theorem realized_price_v2_else_branch_is_reciprocal_of_claim :
    realized_price_uniswap_v2 1 0 0 2500 = 1/2500 ∧
    spec_realized_price_uniswap_v2 1 0 0 2500 = 2500 ∧
    realized_price_uniswap_v2 1 0 0 2500 ≠ spec_realized_price_uniswap_v2 1 0 0 2500 := by
  refine ⟨?_, ?_, ?_⟩ <;>
    norm_num [realized_price_uniswap_v2, spec_realized_price_uniswap_v2]

/-- C2 counterexample: on a pooled-swap (v3) row whose signed legs have
opposite signs and are both nonzero (amount0 = 1, amount1 = -2500) the
realized price is -2500, not a strictly positive value. -/
theorem realized_price_v3_negative_on_signed_row :
    realized_price_uniswap_v3 1 (-2500) = -2500 ∧
    ¬ 0 < realized_price_uniswap_v3 1 (-2500) := by
  constructor <;> norm_num [realized_price_uniswap_v3]

/-- C2 (amended): the realized price is strictly positive whenever the
two leg amounts consumed by the selected branch are strictly positive;
in the pooled-swap (v3) case this means amount0 and amount1 nonzero and
of the same sign, and with opposite signs the result is strictly
negative. -/
theorem realized_price_positive_iff_branch_legs_positive :
    (∀ a0i a0o a1i a1o : ℚ, 0 < a0o → 0 < a1i →
      0 < realized_price_uniswap_v2 a0i a0o a1i a1o) ∧
    (∀ a0i a0o a1i a1o : ℚ, a0o ≤ 0 → 0 < a0i → 0 < a1o →
      0 < realized_price_uniswap_v2 a0i a0o a1i a1o) ∧
    (∀ a0 a1 : ℚ, (0 < a0 ∧ 0 < a1) ∨ (a0 < 0 ∧ a1 < 0) →
      0 < realized_price_uniswap_v3 a0 a1) ∧
    (∀ a0 a1 : ℚ, 0 < a0 → a1 < 0 → realized_price_uniswap_v3 a0 a1 < 0) ∧
    (∀ a0 a1 : ℚ, a0 < 0 → 0 < a1 → realized_price_uniswap_v3 a0 a1 < 0) ∧
    (∀ s b : ℚ, 0 < s → 0 < b → 0 < realized_price_cowswap s b) := by
  refine ⟨?_, ?_, ?_, ?_, ?_, ?_⟩
  · intro a0i a0o a1i a1o h0 h1
    simpa [realized_price_uniswap_v2, if_pos h0] using div_pos h1 h0
  · intro a0i a0o a1i a1o h0 h1 h2
    simpa [realized_price_uniswap_v2, if_neg (not_lt.mpr h0)] using div_pos h1 h2
  · rintro a0 a1 (⟨h0, h1⟩ | ⟨h0, h1⟩)
    · simpa [realized_price_uniswap_v3, if_pos h0] using div_pos h1 h0
    · simpa [realized_price_uniswap_v3, if_neg (not_lt.mpr h0.le)] using
        div_pos_of_neg_of_neg h0 h1
  · intro a0 a1 h0 h1
    simpa [realized_price_uniswap_v3, if_pos h0] using div_neg_of_neg_of_pos h1 h0
  · intro a0 a1 h0 h1
    simpa [realized_price_uniswap_v3, if_neg (not_lt.mpr h0.le)] using
      div_neg_of_neg_of_pos h0 h1
  · intro s b hs hb
    simpa [realized_price_cowswap] using div_pos hb hs

/-- Witness for the amended C2 statement at concrete rows. -/
theorem realized_price_positive_witness :
    0 < realized_price_uniswap_v2 0 2 5000 0 ∧
    0 < realized_price_uniswap_v2 1 0 0 2500 ∧
    0 < realized_price_uniswap_v3 (-1) (-2500) ∧
    realized_price_uniswap_v3 1 (-2500) < 0 ∧
    realized_price_uniswap_v3 (-1) 2500 < 0 ∧
    0 < realized_price_cowswap 2 5000 :=
  ⟨realized_price_positive_iff_branch_legs_positive.1 0 2 5000 0
      (by norm_num) (by norm_num),
   realized_price_positive_iff_branch_legs_positive.2.1 1 0 0 2500
      (by norm_num) (by norm_num) (by norm_num),
   realized_price_positive_iff_branch_legs_positive.2.2.1 (-1) (-2500)
      (Or.inr ⟨by norm_num, by norm_num⟩),
   realized_price_positive_iff_branch_legs_positive.2.2.2.1 1 (-2500)
      (by norm_num) (by norm_num),
   realized_price_positive_iff_branch_legs_positive.2.2.2.2.1 (-1) 2500
      (by norm_num) (by norm_num),
   realized_price_positive_iff_branch_legs_positive.2.2.2.2.2 2 5000
      (by norm_num) (by norm_num)⟩

/-! ## Mid-price resampler (compute_mid_prices, analyze.py lines 29-43)

`compute_mid_prices` sorts the tick frame by `datetime`, resamples
`mid_price` into fixed-width buckets by taking the mean of the ticks in
each bucket, and forward-fills empty buckets.  Tick times are embedded
as natural-number epoch seconds and the resampler grid is the sequence
of bucket starts from the bucket of the first tick to that of the last. -/

/-- Ordering of tick rows by their time column, as `sort_values("datetime")`. -/
def byFst (p q : ℕ × ℚ) : Prop := p.1 ≤ q.1

instance : DecidableRel byFst := fun p q => inferInstanceAs (Decidable (p.1 ≤ q.1))

instance : IsTotal (ℕ × ℚ) byFst := ⟨fun p q => Nat.le_total p.1 q.1⟩

instance : IsTrans (ℕ × ℚ) byFst := ⟨fun _ _ _ h1 h2 => Nat.le_trans h1 h2⟩

/-- Mean of a list of prices; `none` on an empty bucket (pandas NaN). -/
def meanQ (l : List ℚ) : Option ℚ :=
  if l = [] then none else some (l.sum / (l.length : ℚ))

/-- Start of the fixed-width bucket containing time `t` (resampling with
bucket width `freq` aligns buckets at multiples of `freq`). -/
def bucketStart (freq t : ℕ) : ℕ := t / freq * freq

/-- The resampled-but-not-yet-filled series over an already sorted tick
list: one row per bucket from the bucket of the first tick to the
bucket of the last tick, holding the mean of the ticks that fall in it. -/
def resampleGrid (s : List (ℕ × ℚ)) (freq : ℕ) : List (ℕ × Option ℚ) :=
  match s with
  | [] => []
  | (t0, v0) :: rest =>
    let tn := (((t0, v0) :: rest).getLast?.getD (t0, v0)).1
    let b0 := bucketStart freq t0
    let k := (bucketStart freq tn - b0) / freq
    (List.range (k + 1)).map fun i =>
      (b0 + i * freq,
        meanQ ((((t0, v0) :: rest).filter fun p =>
          bucketStart freq p.1 = b0 + i * freq).map Prod.snd))

/-- Resample-and-mean stage `binance_df["mid_price"].resample(freq).mean()`. -/
def rawBuckets (ticks : List (ℕ × ℚ)) (freq : ℕ) : List (ℕ × Option ℚ) :=
  resampleGrid (List.insertionSort byFst ticks) freq

/-- Forward fill `.ffill()`: carry the last known value into empty buckets; buckets
before the first non-empty one stay empty. -/
def ffill (carry : Option ℚ) : List (ℕ × Option ℚ) → List (ℕ × Option ℚ)
  | [] => []
  | (t, some v) :: rest => (t, some v) :: ffill (some v) rest
  | (t, none) :: rest => (t, carry) :: ffill carry rest

/-- Function `compute_mid_prices`: sort, resample to bucket means, forward fill. -/
def compute_mid_prices (ticks : List (ℕ × ℚ)) (freq : ℕ) : List (ℕ × Option ℚ) :=
  ffill none (rawBuckets ticks freq)

/-- The value of the most recent non-empty bucket in `l`, starting from
`carry`; the reference point for what forward filling should produce. -/
def lastKnown (carry : Option ℚ) (l : List (ℕ × Option ℚ)) : Option ℚ :=
  l.foldl (fun acc p => match p.2 with | some v => some v | none => acc) carry

theorem ffill_length (carry : Option ℚ) (l : List (ℕ × Option ℚ)) :
    (ffill carry l).length = l.length := by
  induction l generalizing carry with
  | nil => rfl
  | cons x rest ih =>
    obtain ⟨t, v⟩ := x
    cases v <;> simp [ffill, ih]

theorem lastKnown_cons_some (carry : Option ℚ) (t : ℕ) (v : ℚ)
    (l : List (ℕ × Option ℚ)) :
    lastKnown carry ((t, some v) :: l) = lastKnown (some v) l := rfl

theorem lastKnown_cons_none (carry : Option ℚ) (t : ℕ)
    (l : List (ℕ × Option ℚ)) :
    lastKnown carry ((t, none) :: l) = lastKnown carry l := rfl

theorem ffill_getD (l : List (ℕ × Option ℚ)) (carry : Option ℚ) (i : ℕ)
    (hi : i < l.length) :
    (ffill carry l).getD i (0, none) =
      ((l.getD i (0, none)).1, lastKnown carry (l.take (i + 1))) := by
  induction l generalizing carry i with
  | nil => simp at hi
  | cons x rest ih =>
    obtain ⟨t, v⟩ := x
    cases i with
    | zero => cases v <;> rfl
    | succ j =>
      have hj : j < rest.length := by simpa using hi
      cases v with
      | none =>
        simp only [ffill, List.getD_cons_succ, List.take_succ_cons,
          lastKnown_cons_none]
        exact ih carry j hj
      | some w =>
        simp only [ffill, List.getD_cons_succ, List.take_succ_cons,
          lastKnown_cons_some]
        exact ih (some w) j hj

theorem ffill_all_some (l : List (ℕ × Option ℚ)) (carry : Option ℚ)
    (h : ∀ p ∈ l, p.2.isSome) : ffill carry l = l := by
  induction l generalizing carry with
  | nil => rfl
  | cons x rest ih =>
    obtain ⟨t, v⟩ := x
    cases v with
    | none => simpa using h (t, none) (by simp)
    | some w => simp [ffill, ih _ (fun p hp => h p (by simp [hp]))]

/-- C7: in the resampled series, every bucket holds the value carried
from the most recent earlier non-empty bucket (its own mean when it has
ticks, `none` when no earlier bucket has ticks), never a later one; and
on the series [minute 1: 100, minute 2: no ticks, minute 3: 102] the
minute-2 bucket holds 100, not an interpolation. -/
theorem compute_mid_prices_forward_fills :
    (∀ (ticks : List (ℕ × ℚ)) (freq i : ℕ),
      i < (compute_mid_prices ticks freq).length →
      (compute_mid_prices ticks freq).getD i (0, none) =
        (((rawBuckets ticks freq).getD i (0, none)).1,
          lastKnown none ((rawBuckets ticks freq).take (i + 1)))) ∧
    compute_mid_prices [(60, 100), (180, 102)] 60 =
      [(60, some 100), (120, some 100), (180, some 102)] := by
  constructor
  · intro ticks freq i hi
    have hlen : i < (rawBuckets ticks freq).length := by
      simpa [compute_mid_prices, ffill_length] using hi
    exact ffill_getD (rawBuckets ticks freq) none i hlen
  · with_unfolding_all decide

/-- Witness for C7 at the series of the claim, reading off the
minute-2 bucket (index 1). -/
theorem compute_mid_prices_forward_fills_witness :
    1 < (compute_mid_prices [(60, 100), (180, 102)] 60).length ∧
    (compute_mid_prices [(60, 100), (180, 102)] 60).getD 1 (0, none) =
      (((rawBuckets [(60, 100), (180, 102)] 60).getD 1 (0, none)).1,
        lastKnown none ((rawBuckets [(60, 100), (180, 102)] 60).take 2)) :=
  ⟨by with_unfolding_all decide,
   compute_mid_prices_forward_fills.1 [(60, 100), (180, 102)] 60 1
     (by with_unfolding_all decide)⟩

theorem range_filter_eq (n i : ℕ) (h : i < n) :
    (List.range n).filter (fun j => j = i) = [i] := by
  induction n with
  | zero => simp at h
  | succ m ih =>
    rw [List.range_succ, List.filter_append]
    rcases Nat.lt_succ_iff_lt_or_eq.mp h with hlt | rfl
    · have hne : (decide (m = i)) = false := by
        simp [Nat.ne_of_gt hlt]
      simp [ih hlt, hne]
    · have hnil : (List.range i).filter (fun j => j = i) = [] := by
        rw [List.filter_eq_nil_iff]
        intro a ha
        simp only [List.mem_range] at ha
        simp [Nat.ne_of_lt ha]
      simp [hnil]

theorem getLast?_map_range {α : Type} (g : ℕ → α) (k : ℕ) :
    ((List.range (k + 1)).map g).getLast? = some (g k) := by
  rw [List.range_succ, List.map_append]
  simp

/-- C8: an already regularly spaced, gap-free series whose timestamps
lie exactly on the bucket grid is reproduced exactly by the resampler:
the mean over each single-tick bucket is the value of that tick and forward
filling changes nothing. -/
theorem compute_mid_prices_idempotent (b0m k freq : ℕ) (f : ℕ → ℚ)
    (hfreq : 0 < freq) :
    compute_mid_prices
        ((List.range (k + 1)).map fun i => (b0m * freq + i * freq, f i)) freq =
      (List.range (k + 1)).map fun i => (b0m * freq + i * freq, some (f i)) := by
  set g : ℕ → ℕ × ℚ := fun i => (b0m * freq + i * freq, f i) with hg
  set L : List (ℕ × ℚ) := (List.range (k + 1)).map g with hLdef
  have hgrid : ∀ j : ℕ, bucketStart freq (b0m * freq + j * freq) =
      b0m * freq + j * freq := by
    intro j
    have : b0m * freq + j * freq = (b0m + j) * freq := (Nat.add_mul b0m j freq).symm
    rw [this, bucketStart, Nat.mul_div_cancel _ hfreq]
  have hsorted : List.Sorted byFst L := by
    rw [hLdef, List.Sorted, List.pairwise_map]
    exact (List.pairwise_lt_range ..).imp
      (fun h => Nat.add_le_add_left (Nat.mul_le_mul_right freq h.le) _)
  have hL : L = (b0m * freq + 0 * freq, f 0) ::
      ((List.range k).map fun i => (b0m * freq + (i + 1) * freq, f (i + 1))) := by
    rw [hLdef, List.range_succ_eq_map, List.map_cons, List.map_map]
    rfl
  have hlast : L.getLast? = some (b0m * freq + k * freq, f k) :=
    getLast?_map_range g k
  have hfilter : ∀ i, i < k + 1 →
      L.filter (fun p => bucketStart freq p.1 = b0m * freq + i * freq) =
        [(b0m * freq + i * freq, f i)] := by
    intro i hik
    rw [hLdef, List.filter_map]
    have hpred : ∀ j ∈ List.range (k + 1),
        ((fun p : ℕ × ℚ =>
          decide (bucketStart freq p.1 = b0m * freq + i * freq)) ∘ g) j =
          (decide (j = i)) := by
      intro j _
      simp only [Function.comp_apply, hg]
      simp only [hgrid j]
      by_cases hji : j = i
      · subst hji; simp
      · have : b0m * freq + j * freq ≠ b0m * freq + i * freq := by
          intro hcontra
          exact hji (Nat.eq_of_mul_eq_mul_right hfreq
            (Nat.add_left_cancel hcontra))
        simp [this, hji]
    rw [List.filter_congr hpred, range_filter_eq (k + 1) i hik]
    rfl
  have hraw : rawBuckets L freq =
      (List.range (k + 1)).map fun i => (b0m * freq + i * freq, some (f i)) := by
    rw [rawBuckets, hsorted.insertionSort_eq]
    conv_lhs => rw [hL]
    rw [resampleGrid]
    rw [← hL]
    rw [hlast]
    simp only [Option.getD_some]
    rw [hgrid 0, hgrid k]
    simp only [Nat.zero_mul, Nat.add_zero]
    have hk : (b0m * freq + k * freq - b0m * freq) / freq = k := by
      rw [Nat.add_sub_cancel_left, Nat.mul_div_cancel _ hfreq]
    rw [hk]
    apply List.map_congr_left
    intro i hi
    rw [List.mem_range] at hi
    rw [hfilter i hi]
    simp [meanQ]
  rw [compute_mid_prices, hraw]
  apply ffill_all_some
  intro p hp
  rw [List.mem_map] at hp
  obtain ⟨i, _, rfl⟩ := hp
  rfl

/-- Witness for C8: three on-grid one-minute ticks are reproduced
exactly. -/
theorem compute_mid_prices_idempotent_witness :
    compute_mid_prices
        ((List.range (2 + 1)).map fun i => (1 * 60 + i * 60, (100 : ℚ))) 60 =
      (List.range (2 + 1)).map fun i => (1 * 60 + i * 60, some (100 : ℚ)) :=
  compute_mid_prices_idempotent 1 2 60 (fun _ => (100 : ℚ)) (by norm_num)

/-! ## Nearest-time join (merge_with_midprice, analyze.py lines 92-110)

`pd.merge_asof(..., direction="nearest")` matches each trade to the
mid-price row whose time minimizes the absolute distance, and on a tie
between the backward and forward candidate takes the backward (earlier)
one.  Over a time-sorted mid-price list this is the first row attaining
the minimal distance, which is how `nearestRow` scans. -/

/-- Absolute time distance between a trade time and a bucket time. -/
def timeDist (t b : ℤ) : ℕ := (t - b).natAbs

/-- The mid-price row matched to a trade at time `t`: the first row of
the (sorted) list whose time attains the minimal absolute distance,
i.e. nearest with ties broken toward the earlier bucket. -/
def nearestRow (t : ℤ) (mids : List (ℤ × ℚ)) : Option (ℤ × ℚ) :=
  mids.foldl (fun acc r =>
    match acc with
    | none => some r
    | some m => if timeDist t r.1 < timeDist t m.1 then some r else some m) none

/-- A DEX trade row after normalization, as consumed by the join. -/
structure Trade where
  timestamp_dt : ℤ
  realized_price : ℚ
  trade_size_usd : ℚ
deriving DecidableEq, Repr

/-- Ordering of trades by `timestamp_dt`, as `sort_values("timestamp_dt")`. -/
def tradeByTime (p q : Trade) : Prop := p.timestamp_dt ≤ q.timestamp_dt

instance : DecidableRel tradeByTime :=
  fun p q => inferInstanceAs (Decidable (p.timestamp_dt ≤ q.timestamp_dt))

instance : IsTotal Trade tradeByTime := ⟨fun p q => Int.le_total p.timestamp_dt q.timestamp_dt⟩

instance : IsTrans Trade tradeByTime := ⟨fun _ _ _ h1 h2 => Int.le_trans h1 h2⟩

/-- Ordering of mid-price rows by time, as `sort_values("datetime")`. -/
def midByTime (p q : ℤ × ℚ) : Prop := p.1 ≤ q.1

instance : DecidableRel midByTime := fun p q => inferInstanceAs (Decidable (p.1 ≤ q.1))

instance : IsTotal (ℤ × ℚ) midByTime := ⟨fun p q => Int.le_total p.1 q.1⟩

instance : IsTrans (ℤ × ℚ) midByTime := ⟨fun _ _ _ h1 h2 => Int.le_trans h1 h2⟩

/-- Function `merge_with_midprice`: sort both sides by time, join each trade to
its nearest mid-price row and compute
`price_diff = realized_price - mid_price` (`none` when there is no
mid-price row at all, where pandas would produce NaN). -/
def merge_with_midprice (trades : List Trade) (mids : List (ℤ × ℚ)) :
    List (Trade × Option ℚ) :=
  (List.insertionSort tradeByTime trades).map fun tr =>
    (tr, (nearestRow tr.timestamp_dt (List.insertionSort midByTime mids)).map
      fun r => tr.realized_price - r.2)

theorem nearestRow_go (t : ℤ) (l : List (ℤ × ℚ)) (m : ℤ × ℚ)
    (hsorted : List.Sorted midByTime (m :: l)) :
    ∃ m', (l.foldl (fun acc r =>
        match acc with
        | none => some r
        | some m => if timeDist t r.1 < timeDist t m.1 then some r else some m)
        (some m)) = some m' ∧
      m' ∈ m :: l ∧
      (∀ b ∈ m :: l, timeDist t m'.1 ≤ timeDist t b.1) ∧
      (∀ b ∈ m :: l, timeDist t b.1 = timeDist t m'.1 → m'.1 ≤ b.1) := by
  induction l generalizing m with
  | nil =>
    refine ⟨m, rfl, by simp, ?_, ?_⟩
    · intro b hb
      rw [List.mem_singleton] at hb
      subst hb; exact le_refl _
    · intro b hb _
      rw [List.mem_singleton] at hb
      subst hb; exact le_refl _
  | cons b rest ih =>
    have hsorted' : List.Sorted midByTime (b :: rest) := hsorted.of_cons
    have hmb : midByTime m b := (List.sorted_cons.mp hsorted).1 b (by simp)
    have hsortedm : List.Sorted midByTime (m :: rest) := by
      rw [List.sorted_cons] at hsorted ⊢
      exact ⟨fun c hc => hsorted.1 c (by simp [hc]),
        (List.sorted_cons.mp hsorted.2).2⟩
    simp only [List.foldl_cons]
    by_cases hlt : timeDist t b.1 < timeDist t m.1
    · rw [if_pos hlt]
      obtain ⟨m', heq, hmem, hmin, htie⟩ := ih b hsorted'
      refine ⟨m', heq, by simp [List.mem_cons] at hmem ⊢; tauto, ?_, ?_⟩
      · intro c hc
        rcases List.mem_cons.mp hc with rfl | hc'
        · exact le_trans (hmin b (by simp)) hlt.le
        · exact hmin c hc'
      · intro c hc hceq
        rcases List.mem_cons.mp hc with rfl | hc'
        · exact absurd hceq (by
            have := lt_of_le_of_lt (hmin b (by simp)) hlt
            omega)
        · exact htie c hc' hceq
    · rw [if_neg hlt]
      push_neg at hlt
      obtain ⟨m', heq, hmem, hmin, htie⟩ := ih m hsortedm
      refine ⟨m', heq, by simp [List.mem_cons] at hmem ⊢; tauto, ?_, ?_⟩
      · intro c hc
        rcases List.mem_cons.mp hc with rfl | hc'
        · exact hmin c (by simp)
        · rcases List.mem_cons.mp hc' with rfl | hc2
          · exact le_trans (hmin m (by simp)) hlt
          · exact hmin c (by simp [hc2])
      · intro c hc hceq
        rcases List.mem_cons.mp hc with rfl | hc'
        · exact htie c (by simp) hceq
        · rcases List.mem_cons.mp hc' with rfl | hc2
          · have hmm : timeDist t m.1 = timeDist t m'.1 := by
              have h1 := hmin m (by simp)
              omega
            exact le_trans (htie m (by simp) hmm) hmb
          · exact htie c (by simp [hc2]) hceq

/-- C3: over a sorted mid-price series the matched row minimizes the
absolute time distance to the trade, and any other row at the same
distance has a later-or-equal time: nearest, ties to the earlier
bucket. -/
theorem nearestRow_nearest_ties_earlier (t : ℤ) (mids : List (ℤ × ℚ))
    (hsorted : List.Sorted midByTime mids) (hne : mids ≠ []) :
    ∃ m, nearestRow t mids = some m ∧ m ∈ mids ∧
      (∀ b ∈ mids, timeDist t m.1 ≤ timeDist t b.1) ∧
      (∀ b ∈ mids, timeDist t b.1 = timeDist t m.1 → m.1 ≤ b.1) := by
  match mids with
  | [] => exact absurd rfl hne
  | m0 :: rest => exact nearestRow_go t rest m0 hsorted

/-- Witness for C3: a trade at time 100 with buckets at 60 (40 earlier)
and 120 (20 later) matches the strictly closer bucket 120; with
equidistant buckets 80 and 120 it matches the earlier bucket 80. -/
theorem nearestRow_nearest_ties_earlier_witness :
    (∃ m, nearestRow 100 [(60, 1), (120, 2)] = some m ∧
      m ∈ ([(60, 1), (120, 2)] : List (ℤ × ℚ)) ∧
      (∀ b ∈ ([(60, 1), (120, 2)] : List (ℤ × ℚ)),
        timeDist 100 m.1 ≤ timeDist 100 b.1) ∧
      (∀ b ∈ ([(60, 1), (120, 2)] : List (ℤ × ℚ)),
        timeDist 100 b.1 = timeDist 100 m.1 → m.1 ≤ b.1)) ∧
    nearestRow 100 [(60, 1), (120, 2)] = some (120, 2) ∧
    nearestRow 100 [(80, 1), (120, 2)] = some (80, 1) :=
  ⟨nearestRow_nearest_ties_earlier 100 [(60, 1), (120, 2)]
      (by norm_num [List.sorted_cons, midByTime]) (by simp),
   by norm_num [nearestRow, timeDist],
   by norm_num [nearestRow, timeDist]⟩

/-! ## Quantile bucketizer (bucket_by_trade_size, analyze.py lines 112-119)

`pd.qcut(x, q=n, duplicates="drop")` computes the n+1 linear-interpolated
quantiles of the data as bin edges, drops duplicate edges, and assigns
each value to the right-closed interval it falls in, with the lowest
edge included in the first interval; values outside every interval get
no bucket.  `groupby("bucket").mean()` then reports the mean of
`price_diff` per interval, in interval order. -/

/-- Sorting of the size column, as done inside the quantile computation. -/
def sortQ (l : List ℚ) : List ℚ := List.insertionSort (· ≤ ·) l

/-- Linear interpolation of sorted data `s` at fractional index
`num / n`: with `lo = num / n` rounded down and fractional part
`(num mod n) / n`, the value is `x_lo + frac * (x_(lo+1) - x_lo)`
(the out-of-range upper neighbour clamps to `x_lo`). -/
def interpAt (s : List ℚ) (n num : ℕ) : ℚ :=
  let lo := num / n
  let xlo := s.getD lo 0
  xlo + (((num % n : ℕ) : ℚ) / (n : ℚ)) * (s.getD (lo + 1) xlo - xlo)

/-- The i-th of the n+1 quantile bin edges of `s`: interpolation at
parameter `i/n` over positions `0 .. length-1`. -/
def interpQuantile (s : List ℚ) (n i : ℕ) : ℚ := interpAt s n (i * (s.length - 1))

/-- The raw (pre-dedup) quantile edge list of the size column. -/
def qcutRawEdges (sizes : List ℚ) (n : ℕ) : List ℚ :=
  (List.range (n + 1)).map fun i => interpQuantile (sortQ sizes) n i

/-- Collapse of equal adjacent values in a sorted list, as
`duplicates="drop"` does on the edge array. -/
def dedupSorted : List ℚ → List ℚ
  | [] => []
  | [a] => [a]
  | a :: b :: rest =>
    if a = b then dedupSorted (b :: rest) else a :: dedupSorted (b :: rest)

/-- The final bin edges used by qcut. -/
def qcutEdges (sizes : List ℚ) (n : ℕ) : List ℚ :=
  dedupSorted (qcutRawEdges sizes n)

/-- Bucket index of value `v` against the deduplicated edges: pandas
searchsorted with side left, the lowest edge folded into bucket 0, and
`none` when the value lies outside all intervals or when fewer than two
edges remain. -/
def bucketIdx (edges : List ℚ) (v : ℚ) : Option ℕ :=
  match edges with
  | [] => none
  | e0 :: _ =>
    let j := if v = e0 then 1 else edges.countP (fun e => e < v)
    if 1 ≤ j ∧ j ≤ edges.length - 1 then some (j - 1) else none

/-- Function `bucket_by_trade_size`: one output row per interval between
consecutive edges, holding the interval and the mean `price_diff` of
the rows assigned to it.  A row is `(trade_size_usd, price_diff)`. -/
def bucket_by_trade_size (rows : List (ℚ × ℚ)) (n : ℕ) :
    List ((ℚ × ℚ) × Option ℚ) :=
  (List.range ((qcutEdges (rows.map Prod.fst) n).length - 1)).map fun i =>
    (((qcutEdges (rows.map Prod.fst) n).getD i 0,
      (qcutEdges (rows.map Prod.fst) n).getD (i + 1) 0),
      meanQ ((rows.filter fun r =>
        bucketIdx (qcutEdges (rows.map Prod.fst) n) r.1 = some i).map Prod.snd))

/-- Per-interval row counts of the bucketizer, for the count property. -/
def bucketCounts (rows : List (ℚ × ℚ)) (n : ℕ) : List ℕ :=
  (List.range ((qcutEdges (rows.map Prod.fst) n).length - 1)).map fun i =>
    (rows.filter fun r =>
      bucketIdx (qcutEdges (rows.map Prod.fst) n) r.1 = some i).length

theorem getD_mono (s : List ℚ) (hs : List.Sorted (· ≤ ·) s) {i j : ℕ}
    (hij : i ≤ j) (hj : j < s.length) (d d2 : ℚ) : s.getD i d ≤ s.getD j d2 := by
  have hi : i < s.length := lt_of_le_of_lt hij hj
  rw [List.getD_eq_getElem s d hi, List.getD_eq_getElem s d2 hj]
  rcases Nat.lt_or_ge i j with hlt | hge
  · have := List.pairwise_iff_get.mp hs ⟨i, hi⟩ ⟨j, hj⟩ hlt
    simpa using this
  · have : i = j := le_antisymm hij hge
    subst this
    exact le_refl _

theorem dedupSorted_head? : ∀ l : List ℚ, (dedupSorted l).head? = l.head?
  | [] => rfl
  | [a] => rfl
  | a :: b :: rest => by
    rw [dedupSorted]
    by_cases hab : a = b
    · rw [if_pos hab, dedupSorted_head? (b :: rest)]
      simp [hab]
    · rw [if_neg hab]
      rfl

theorem dedupSorted_length_le : ∀ l : List ℚ, (dedupSorted l).length ≤ l.length
  | [] => le_refl _
  | [_] => le_refl _
  | a :: b :: rest => by
    rw [dedupSorted]
    by_cases hab : a = b
    · rw [if_pos hab]
      exact le_trans (dedupSorted_length_le (b :: rest)) (by simp)
    · rw [if_neg hab]
      simpa using dedupSorted_length_le (b :: rest)

theorem dedupSorted_ne_nil {l : List ℚ} (h : l ≠ []) : dedupSorted l ≠ [] := by
  intro hcon
  have h1 := dedupSorted_head? l
  rw [hcon] at h1
  cases l with
  | nil => exact h rfl
  | cons a rest => simp at h1

theorem dedupSorted_chain_lt : ∀ l : List ℚ, List.Chain' (· ≤ ·) l →
    List.Chain' (· < ·) (dedupSorted l)
  | [], _ => List.chain'_nil
  | [a], _ => List.chain'_singleton a
  | a :: b :: rest, hc => by
    have hab : a ≤ b := List.chain'_cons.mp hc |>.1
    have hc' : List.Chain' (· ≤ ·) (b :: rest) := List.chain'_cons.mp hc |>.2
    rw [dedupSorted]
    by_cases heq : a = b
    · rw [if_pos heq]
      exact dedupSorted_chain_lt (b :: rest) hc'
    · rw [if_neg heq]
      rw [List.chain'_cons']
      refine ⟨?_, dedupSorted_chain_lt (b :: rest) hc'⟩
      intro h hh
      rw [dedupSorted_head? (b :: rest)] at hh
      simp only [List.head?_cons, Option.mem_def, Option.some.injEq] at hh
      subst hh
      exact lt_of_le_of_ne hab heq

theorem interpAt_mono (s : List ℚ) (hs : List.Sorted (· ≤ ·) s) (hne : s ≠ [])
    (n : ℕ) (hn : 0 < n) (a b : ℕ) (hab : a ≤ b) (hb : b ≤ n * (s.length - 1)) :
    interpAt s n a ≤ interpAt s n b := by
  have hm1 : 1 ≤ s.length := List.length_pos.mpr hne
  have hlbm : b / n ≤ s.length - 1 := by
    calc b / n ≤ n * (s.length - 1) / n := Nat.div_le_div_right hb
    _ = s.length - 1 := Nat.mul_div_cancel_left _ hn
  have hfr0 : ∀ x : ℕ, (0 : ℚ) ≤ ((x % n : ℕ) : ℚ) / n :=
    fun x => div_nonneg (Nat.cast_nonneg _) (Nat.cast_nonneg _)
  have hfr1 : ∀ x : ℕ, ((x % n : ℕ) : ℚ) / n < 1 := fun x => by
    rw [div_lt_one (by exact_mod_cast hn)]
    exact_mod_cast Nat.mod_lt x hn
  have hdelta : ∀ lo : ℕ, s.getD lo 0 ≤ s.getD (lo + 1) (s.getD lo 0) := by
    intro lo
    by_cases h : lo + 1 < s.length
    · exact getD_mono s hs (Nat.le_succ lo) h _ _
    · have hoob : s.length ≤ lo + 1 := by omega
      rw [List.getD_eq_default s (s.getD lo 0) hoob]
  rcases Nat.lt_or_ge (a / n) (b / n) with hlt | hge
  · have hla1m : a / n + 1 < s.length := by omega
    have hup : interpAt s n a ≤ s.getD (a / n + 1) 0 := by
      rw [interpAt]
      have hd := hdelta (a / n)
      have h1 : (((a % n : ℕ) : ℚ) / n) *
          (s.getD (a / n + 1) (s.getD (a / n) 0) - s.getD (a / n) 0) ≤
          s.getD (a / n + 1) (s.getD (a / n) 0) - s.getD (a / n) 0 :=
        mul_le_of_le_one_left (sub_nonneg.mpr hd) (hfr1 a).le
      have h2 : s.getD (a / n + 1) (s.getD (a / n) 0) = s.getD (a / n + 1) 0 := by
        rw [List.getD_eq_getElem s _ hla1m, List.getD_eq_getElem s _ hla1m]
      simp only [h2] at h1 ⊢
      linarith
    have hmid : s.getD (a / n + 1) 0 ≤ s.getD (b / n) 0 :=
      getD_mono s hs hlt (by omega) _ _
    have hlow : s.getD (b / n) 0 ≤ interpAt s n b := by
      rw [interpAt]
      have hd := hdelta (b / n)
      have := mul_nonneg (hfr0 b) (sub_nonneg.mpr hd)
      linarith
    linarith
  · have heq : a / n = b / n := le_antisymm (Nat.div_le_div_right hab) hge
    rw [interpAt, interpAt, heq]
    have hd := hdelta (b / n)
    have hmodle : a % n ≤ b % n := by
      have h1 : n * (b / n) + a % n = a := by rw [← heq]; exact Nat.div_add_mod a n
      have h2 : n * (b / n) + b % n = b := Nat.div_add_mod b n
      have h3 : n * (b / n) + a % n ≤ n * (b / n) + b % n := by
        rw [h1, h2]; exact hab
      exact Nat.le_of_add_le_add_left h3
    have hfrab : ((a % n : ℕ) : ℚ) / n ≤ ((b % n : ℕ) : ℚ) / n := by
      gcongr
    have := mul_le_mul_of_nonneg_right hfrab (sub_nonneg.mpr hd)
    linarith

theorem sortQ_sorted (l : List ℚ) : List.Sorted (· ≤ ·) (sortQ l) :=
  List.sorted_insertionSort _ l

theorem sortQ_length (l : List ℚ) : (sortQ l).length = l.length :=
  List.length_insertionSort _ l

theorem qcutEdges_chain_lt (sizes : List ℚ) (n : ℕ) (hn : 0 < n)
    (hne : sizes ≠ []) : List.Chain' (· < ·) (qcutEdges sizes n) := by
  apply dedupSorted_chain_lt
  rw [qcutRawEdges]
  rw [List.chain'_map]
  rw [List.chain'_range_succ]
  intro i hi
  have hs := sortQ_sorted sizes
  have hsne : sortQ sizes ≠ [] := by
    intro hcon
    have := sortQ_length sizes
    rw [hcon] at this
    exact hne (List.length_eq_zero.mp this.symm)
  rw [interpQuantile, interpQuantile]
  refine interpAt_mono (sortQ sizes) hs hsne n hn _ _ ?_ ?_
  · exact Nat.mul_le_mul_right _ (Nat.le_succ i)
  · exact Nat.mul_le_mul_right _ hi

theorem getD_map_range {α : Type} (f : ℕ → α) (L i : ℕ) (h : i < L) (d : α) :
    ((List.range L).map f).getD i d = f i := by
  have hlen : i < ((List.range L).map f).length := by simpa using h
  rw [List.getD_eq_getElem _ _ hlen]
  simp

/-- The 100 uniformly spaced trade sizes 1, 2, ..., 100 of the count
scenario, paired with a zero price difference. -/
def rows100 : List (ℚ × ℚ) := (List.range 100).map fun j => (((j + 1 : ℕ) : ℚ), 0)

/-- C6: for every non-empty input the deduplicated quantile edges are
strictly increasing; the bucketizer yields at most n groups, one fewer
than the number of edges, whose intervals are ordered by strictly
increasing lower bound, pairwise non-overlapping and contiguous
(adjacent intervals share an endpoint), each reporting the mean of
price_diff over its member rows; and on 100 uniformly spaced sizes with
n = 10 every group holds exactly 10 rows, within the claimed margin of
one around 10. -/
theorem bucket_by_trade_size_partition :
    (∀ (rows : List (ℚ × ℚ)) (n : ℕ), 0 < n → rows ≠ [] →
      List.Chain' (· < ·) (qcutEdges (rows.map Prod.fst) n) ∧
      (bucket_by_trade_size rows n).length ≤ n ∧
      (bucket_by_trade_size rows n).length + 1 =
        (qcutEdges (rows.map Prod.fst) n).length ∧
      (∀ i j : ℕ, i < j → j < (bucket_by_trade_size rows n).length →
        ((bucket_by_trade_size rows n).getD i default).1.1 <
          ((bucket_by_trade_size rows n).getD j default).1.1 ∧
        ((bucket_by_trade_size rows n).getD i default).1.2 ≤
          ((bucket_by_trade_size rows n).getD j default).1.1) ∧
      (∀ i : ℕ, i + 1 < (bucket_by_trade_size rows n).length →
        ((bucket_by_trade_size rows n).getD i default).1.2 =
          ((bucket_by_trade_size rows n).getD (i + 1) default).1.1) ∧
      (∀ i : ℕ, i < (bucket_by_trade_size rows n).length →
        ((bucket_by_trade_size rows n).getD i default).2 =
          meanQ ((rows.filter fun r =>
            bucketIdx (qcutEdges (rows.map Prod.fst) n) r.1 = some i).map
            Prod.snd))) ∧
    bucketCounts rows100 10 = List.replicate 10 10 ∧
    (∀ c ∈ bucketCounts rows100 10, 9 ≤ c ∧ c ≤ 11) := by
  refine ⟨?_, ?_, ?_⟩
  · intro rows n hn hrows
    have hmapne : rows.map Prod.fst ≠ [] := by
      simpa [List.map_eq_nil_iff] using hrows
    have hchain := qcutEdges_chain_lt (rows.map Prod.fst) n hn hmapne
    have hlen_raw : (qcutRawEdges (rows.map Prod.fst) n).length = n + 1 := by
      simp [qcutRawEdges]
    have hlen_le : (qcutEdges (rows.map Prod.fst) n).length ≤ n + 1 := by
      rw [qcutEdges]
      exact le_trans (dedupSorted_length_le _) (le_of_eq hlen_raw)
    have hne_edges : qcutEdges (rows.map Prod.fst) n ≠ [] := by
      rw [qcutEdges]
      apply dedupSorted_ne_nil
      intro hcon
      rw [hcon] at hlen_raw
      simp at hlen_raw
    have hpos : 1 ≤ (qcutEdges (rows.map Prod.fst) n).length :=
      List.length_pos.mpr hne_edges
    have hglen : (bucket_by_trade_size rows n).length =
        (qcutEdges (rows.map Prod.fst) n).length - 1 := by
      rw [bucket_by_trade_size]
      simp
    have hgetD : ∀ i, i < (qcutEdges (rows.map Prod.fst) n).length - 1 →
        (bucket_by_trade_size rows n).getD i default =
          (((qcutEdges (rows.map Prod.fst) n).getD i 0,
            (qcutEdges (rows.map Prod.fst) n).getD (i + 1) 0),
            meanQ ((rows.filter fun r =>
              bucketIdx (qcutEdges (rows.map Prod.fst) n) r.1 = some i).map
              Prod.snd)) := by
      intro i hi
      rw [bucket_by_trade_size]
      exact getD_map_range _ _ i hi _
    have hedgeLt : ∀ i j : ℕ, i < j → j < (qcutEdges (rows.map Prod.fst) n).length →
        (qcutEdges (rows.map Prod.fst) n).getD i 0 <
          (qcutEdges (rows.map Prod.fst) n).getD j 0 := by
      intro i j hij hj
      have hp := List.chain'_iff_pairwise.mp hchain
      have hi : i < (qcutEdges (rows.map Prod.fst) n).length := lt_trans hij hj
      rw [List.getD_eq_getElem _ _ hi, List.getD_eq_getElem _ _ hj]
      simpa using List.pairwise_iff_get.mp hp ⟨i, hi⟩ ⟨j, hj⟩ hij
    refine ⟨hchain, by omega, by omega, ?_, ?_, ?_⟩
    · intro i j hij hj
      rw [hglen] at hj
      have hi : i < (qcutEdges (rows.map Prod.fst) n).length - 1 := lt_trans hij hj
      rw [hgetD i hi, hgetD j hj]
      constructor
      · exact hedgeLt i j hij (by omega)
      · rcases Nat.lt_or_ge (i + 1) j with h | h
        · exact (hedgeLt (i + 1) j h (by omega)).le
        · have : i + 1 = j := by omega
          subst this
          exact le_refl _
    · intro i hi
      rw [hglen] at hi
      rw [hgetD i (by omega), hgetD (i + 1) hi]
    · intro i hi
      rw [hglen] at hi
      rw [hgetD i hi]
  · with_unfolding_all decide
  · with_unfolding_all decide

/-- Witness for C6 on the 100-row uniform input with 10 buckets. -/
theorem bucket_by_trade_size_partition_witness :
    (0 < 10 ∧ rows100 ≠ []) ∧
    List.Chain' (· < ·) (qcutEdges (rows100.map Prod.fst) 10) ∧
    (bucket_by_trade_size rows100 10).length ≤ 10 :=
  ⟨⟨by norm_num, by simp [rows100]⟩,
   (bucket_by_trade_size_partition.1 rows100 10 (by norm_num)
     (by simp [rows100])).1,
   (bucket_by_trade_size_partition.1 rows100 10 (by norm_num)
     (by simp [rows100])).2.1⟩

/-! ## End-to-end scenario of the spec (C9)

Three identical trades of size 100 at realized price 105, joined
against the single mid-price bucket 100, then bucketized with the
default 10 quantile buckets as `main_analysis` does. -/

/-- Three identical trades: size 100 USD, realized price 105. -/
def trades3 : List Trade := [⟨0, 105, 100⟩, ⟨0, 105, 100⟩, ⟨0, 105, 100⟩]

/-- A single mid-price bucket at 100. -/
def mids1 : List (ℤ × ℚ) := [(0, 100)]

/-- The joined rows as handed to the bucketizer:
`(trade_size_usd, price_diff)` per trade.  With a non-empty mid-price
list every `price_diff` is present, so reading the option with default
0 loses nothing. -/
def merged3 : List (ℚ × ℚ) :=
  (merge_with_midprice trades3 mids1).map fun p => (p.1.trade_size_usd, p.2.getD 0)

/-- C9 counterexample: the claimed output, one bucket with
avg_cost_diff = 5, is not what the pipeline produces on the three
identical trades. -/
theorem merge_bucket_three_identical_not_single_bucket :
    ¬ ((bucket_by_trade_size merged3 10).length = 1 ∧
      ((bucket_by_trade_size merged3 10).getD 0 default).2 = some 5) := by
  with_unfolding_all decide

/-- C9 (amended): the join does give every trade a price difference of
5, but with all trade sizes equal the eleven quantile boundaries all
coincide at 100 and collapse to a single edge, leaving no interval, so
the aggregated output is empty. -/
theorem merge_bucket_three_identical_empty :
    merged3 = [(100, 5), (100, 5), (100, 5)] ∧
    qcutEdges (merged3.map Prod.fst) 10 = [100] ∧
    bucket_by_trade_size merged3 10 = [] := by
  refine ⟨?_, ?_, ?_⟩ <;> with_unfolding_all decide

/-! ## Keyset pagination (fetch_uniswap_v2.py lines 29-87,
fetch_cowswap.py lines 26-69, fetch_uniswap_v3.py lines 24-71)

The while-loop queries with an id_gt lower bound (initially the empty
string), stops on a malformed response or an empty page, otherwise
extends the accumulator and sets the bound to the id of the last row of
the page.  For the ordering invariant the upstream is abstracted as a
function from the current lower bound (`none` for the initial empty
string) to the returned page of ids. -/

/-- The pagination loop on the id column: stop on an empty page, else
append the page and continue from the id of its last row.  `fuel`
bounds the number of requests issued. -/
def fetchLoop (server : Option ℕ → List ℕ) : ℕ → Option ℕ → List ℕ
  | 0, _ => []
  | fuel + 1, last =>
    match (server last).getLast? with
    | none => []
    | some lid => server last ++ fetchLoop server fuel (some lid)

/-- The upstream honors the query: every page is strictly ascending in
id and every returned id is strictly greater than the requested id_gt
lower bound. -/
def Honors (server : Option ℕ → List ℕ) : Prop :=
  ∀ last, List.Chain' (· < ·) (server last) ∧
    ∀ l, last = some l → ∀ i ∈ server last, l < i

theorem mem_le_getLast {l : List ℕ} (hpw : List.Pairwise (· < ·) l) {lid : ℕ}
    (hlast : l.getLast? = some lid) : ∀ x ∈ l, x ≤ lid := by
  induction l with
  | nil => simp at hlast
  | cons a rest ih =>
    intro x hx
    cases rest with
    | nil =>
      simp at hlast hx
      omega
    | cons b rest2 =>
      rw [List.getLast?_cons_cons] at hlast
      have hlid : lid ∈ b :: rest2 := by
        obtain ⟨hne, rfl⟩ := List.mem_getLast?_eq_getLast (Option.mem_def.mpr hlast)
        exact List.getLast_mem hne
      rcases List.mem_cons.mp hx with rfl | hx'
      · exact (List.pairwise_cons.mp hpw).1 lid hlid |>.le
      · exact ih (List.pairwise_cons.mp hpw).2 hlast x hx'

theorem fetchLoop_invariant (server : Option ℕ → List ℕ) (hs : Honors server) :
    ∀ (fuel : ℕ) (last : Option ℕ),
      (∀ x ∈ fetchLoop server fuel last, ∀ l, last = some l → l < x) ∧
      List.Pairwise (· < ·) (fetchLoop server fuel last) := by
  intro fuel
  induction fuel with
  | zero => intro last; exact ⟨by simp [fetchLoop], by simp [fetchLoop]⟩
  | succ f ih =>
    intro last
    rcases hpage : (server last).getLast? with _ | lid
    · constructor
      · intro x hx
        rw [fetchLoop, hpage] at hx
        simp at hx
      · rw [fetchLoop, hpage]
        exact List.Pairwise.nil
    · have hlidmem : lid ∈ server last := by
        obtain ⟨hne, rfl⟩ := List.mem_getLast?_eq_getLast (Option.mem_def.mpr hpage)
        exact List.getLast_mem hne
      have hpagepw : List.Pairwise (· < ·) (server last) :=
        List.chain'_iff_pairwise.mp (hs last).1
      obtain ⟨ihbound, ihpw⟩ := ih (some lid)
      constructor
      · intro x hx l hl
        rw [fetchLoop, hpage] at hx
        rcases List.mem_append.mp hx with hx' | hx'
        · exact (hs last).2 l hl x hx'
        · exact lt_trans ((hs last).2 l hl lid hlidmem) (ihbound x hx' lid rfl)
      · rw [fetchLoop, hpage]
        rw [List.pairwise_append]
        refine ⟨hpagepw, ihpw, ?_⟩
        intro a ha b hb
        exact lt_of_le_of_lt (mem_le_getLast hpagepw hpage a ha)
          (ihbound b hb lid rfl)

/-- C5: when the upstream honors the id_gt bound and ascending id
order, the concatenation of all pages is strictly increasing (hence
duplicate free); the loop returns nothing past an empty page and
otherwise appends the page and recurses with the bound set to the id of
the last row of that page. -/
theorem fetchLoop_strictly_increasing (server : Option ℕ → List ℕ)
    (hs : Honors server) (fuel : ℕ) (last : Option ℕ) :
    List.Pairwise (· < ·) (fetchLoop server fuel last) ∧
    (fetchLoop server fuel last).Nodup ∧
    (server last = [] → fetchLoop server (fuel + 1) last = []) ∧
    (∀ lid, (server last).getLast? = some lid →
      fetchLoop server (fuel + 1) last =
        server last ++ fetchLoop server fuel (some lid)) := by
  have hpw := (fetchLoop_invariant server hs fuel last).2
  refine ⟨hpw, hpw.imp ne_of_lt, ?_, ?_⟩
  · intro hempty
    rw [fetchLoop, hempty]
    rfl
  · intro lid hlid
    rw [fetchLoop, hlid]

/-- A three-page upstream for the pagination witness. -/
def demoServer : Option ℕ → List ℕ
  | none => [1, 2]
  | some l => if l = 2 then [3] else []

theorem demoServer_honors : Honors demoServer := by
  rintro (_ | l)
  · refine ⟨by simp [demoServer, List.chain'_cons], ?_⟩
    rintro l ⟨⟩
  · by_cases h2 : l = 2
    · subst h2
      refine ⟨by simp [demoServer], ?_⟩
      rintro l' hl' i hi
      simp [demoServer] at hi
      cases Option.some.inj hl'
      omega
    · refine ⟨by simp [demoServer, h2], ?_⟩
      rintro l' hl' i hi
      simp [demoServer, h2] at hi

/-- Witness for C5 on the three-page upstream. -/
theorem fetchLoop_strictly_increasing_witness :
    List.Pairwise (· < ·) (fetchLoop demoServer 5 none) ∧
    fetchLoop demoServer 5 none = [1, 2, 3] :=
  ⟨(fetchLoop_strictly_increasing demoServer demoServer_honors 5 none).1,
   by decide⟩

/-! ## Error handling of the fetchers (C4) -/

/-- A CoW subgraph order row as fetch_cowswap_trades consumes it. -/
structure CowOrder where
  oid : String
  creationTimestamp : ℤ
  sellTokenSym : String
  buyTokenSym : String
  sellAmount : ℚ
  buyAmount : ℚ
deriving DecidableEq

/-- One upstream response: a well-formed page of orders, or a response
missing the expected top-level fields. -/
inductive CowResp
  | malformed
  | page (orders : List CowOrder)

/-- The while-loop of fetch_cowswap_trades over the successive upstream
responses: break on a malformed response (after logging it) or on an
empty page, otherwise accumulate the page and continue. -/
def cowswapLoop : List CowResp → List CowOrder
  | [] => []
  | CowResp.malformed :: _ => []
  | CowResp.page [] :: _ => []
  | CowResp.page (o :: os) :: rest => (o :: os) ++ cowswapLoop rest

/-- Pair test of fetch_cowswap_trades: the set of the two token symbols
equals the set of the configured (distinct) pair symbols. -/
def isPairCow (pair : String × String) (o : CowOrder) : Bool :=
  (o.sellTokenSym == pair.1 && o.buyTokenSym == pair.2) ||
    (o.sellTokenSym == pair.2 && o.buyTokenSym == pair.1)

/-- fetch_cowswap_trades after the loop: build the frame from the
accumulated rows, cast the creationTimestamp column, filter to the
pair.  A frame built from zero rows has no columns at all, so reading
`df["creationTimestamp"]` raises a KeyError; with at least one row the
cast succeeds (timestamps are already integral here) and the pair
filter is applied. -/
def fetch_cowswap_trades (resps : List CowResp) (pair : String × String) :
    Except String (List CowOrder) :=
  match cowswapLoop resps with
  | [] => Except.error "KeyError: creationTimestamp"
  | o :: os => Except.ok ((o :: os).filter (isPairCow pair))

/-- A Uniswap v2 swap row as fetch_uniswap_v2_trades consumes it. -/
structure V2Swap where
  sid : String
  timestamp : ℤ
  amount0In : ℚ
  amount0Out : ℚ
  amount1In : ℚ
  amount1Out : ℚ
  token0Sym : String
  token1Sym : String
deriving DecidableEq

/-- One upstream response for the v2 fetcher. -/
inductive V2Resp
  | malformed
  | page (swaps : List V2Swap)

/-- The while-loop of fetch_uniswap_v2_trades, same shape as the
cowswap loop. -/
def uniswapV2Loop : List V2Resp → List V2Swap
  | [] => []
  | V2Resp.malformed :: _ => []
  | V2Resp.page [] :: _ => []
  | V2Resp.page (s :: ss) :: rest => (s :: ss) ++ uniswapV2Loop rest

/-- Pair test of fetch_uniswap_v2_trades: both pool token symbols are
members of the configured pair. -/
def isPairV2 (pair : String × String) (sw : V2Swap) : Bool :=
  (sw.token0Sym == pair.1 || sw.token0Sym == pair.2) &&
    (sw.token1Sym == pair.1 || sw.token1Sym == pair.2)

/-- fetch_uniswap_v2_trades after the loop: the explicit
`if df.empty: return df` guard returns the empty frame before any
column access, so the zero-row case cannot raise; otherwise cast the
timestamp column and filter to the pair. -/
def fetch_uniswap_v2_trades (resps : List V2Resp) (pair : String × String) :
    List V2Swap :=
  match uniswapV2Loop resps with
  | [] => []
  | s :: ss => (s :: ss).filter (isPairV2 pair)

/-- A sample order for the incomplete-result case. -/
def demoOrder : CowOrder := ⟨"0x01", 1704067200, "WETH", "USDT", 1, 2500⟩

/-- C4: on a malformed first response (zero rows accumulated) the
cowswap fetcher does not return an empty table: the column cast on the
column-less empty frame raises a KeyError.  The v2 fetcher, with its
empty guard, does return the empty table; and with rows already
accumulated the cowswap fetcher does return the rows so far without
raising. -/
theorem cowswap_zero_rows_raises :
    fetch_cowswap_trades [CowResp.malformed] ("WETH", "USDT") =
      Except.error "KeyError: creationTimestamp" ∧
    fetch_uniswap_v2_trades [V2Resp.malformed] ("WETH", "USDT") = [] ∧
    fetch_cowswap_trades [CowResp.page [demoOrder], CowResp.malformed]
        ("WETH", "USDT") = Except.ok [demoOrder] := by
  refine ⟨rfl, rfl, ?_⟩
  with_unfolding_all rfl

/-! ## In-place mutation of the shared frame (C10)

The normalizers and the bucketizer assign columns with `df[c] = ...`
on the very frame object handed in and return that same object.
Mutation is embedded with a store of frames addressed by references:
every column assignment is a write through the argument reference, so
the caller, still holding the same reference, observes the added
columns after the call. -/

/-- A column of a frame. -/
inductive ColVal
  | ints (xs : List ℤ)
  | floats (xs : List ℚ)
  | datetimes (xs : List ℤ)
  | cats (xs : List (Option ℕ))
  | floatsOpt (xs : List (Option ℚ))
deriving DecidableEq

/-- A data frame: newest column binding first, shadowing older ones. -/
abbrev Frame := List (String × ColVal)

abbrev Ref := ℕ

/-- The store of live frame objects. -/
abbrev Store := Ref → Frame

def readRef (s : Store) (r : Ref) : Frame := s r

def writeRef (s : Store) (r : Ref) (f : Frame) : Store :=
  fun r2 => if r2 = r then f else s r2

/-- Column assignment `df[c] = v`. -/
def setCol (f : Frame) (c : String) (v : ColVal) : Frame := (c, v) :: f

def getColD (f : Frame) (c : String) : ColVal :=
  (f.lookup c).getD (ColVal.floats [])

def hasCol (f : Frame) (c : String) : Bool := (f.lookup c).isSome

/-- Cast `astype(float)` of a column. -/
def asFloats : ColVal → List ℚ
  | ColVal.ints xs => xs.map fun z => (z : ℚ)
  | ColVal.floats xs => xs
  | ColVal.datetimes xs => xs.map fun z => (z : ℚ)
  | ColVal.cats _ => []
  | ColVal.floatsOpt _ => []

/-- Integer seconds of a column, for `pd.to_datetime(..., unit="s")`. -/
def asInts : ColVal → List ℤ
  | ColVal.ints xs => xs
  | ColVal.floats xs => xs.map fun q => ⌊q⌋
  | ColVal.datetimes xs => xs
  | ColVal.cats _ => []
  | ColVal.floatsOpt _ => []

/-- Assignment `df[c] = df[c].astype(float)` as a store action through `r`. -/
def astype_float_col (s : Store) (r : Ref) (c : String) : Store :=
  writeRef s r (setCol (readRef s r) c
    (ColVal.floats (asFloats (getColD (readRef s r) c))))

/-- compute_realized_prices_uniswap_v2 as a store action: recast the
four amount columns, assign the realized_price column row-wise from
the np.where formula, assign timestamp_dt, return the same object. -/
def compute_realized_prices_uniswap_v2_st (r : Ref) (s0 : Store) : Ref × Store :=
  let s4 := astype_float_col (astype_float_col (astype_float_col
    (astype_float_col s0 r "amount0In") r "amount0Out") r "amount1In")
    r "amount1Out"
  let a0i := asFloats (getColD (readRef s4 r) "amount0In")
  let a0o := asFloats (getColD (readRef s4 r) "amount0Out")
  let a1i := asFloats (getColD (readRef s4 r) "amount1In")
  let a1o := asFloats (getColD (readRef s4 r) "amount1Out")
  let rp := (List.range a0o.length).map fun k =>
    realized_price_uniswap_v2 (a0i.getD k 0) (a0o.getD k 0)
      (a1i.getD k 0) (a1o.getD k 0)
  let s5 := writeRef s4 r (setCol (readRef s4 r) "realized_price"
    (ColVal.floats rp))
  let s6 := writeRef s5 r (setCol (readRef s5 r) "timestamp_dt"
    (ColVal.datetimes (asInts (getColD (readRef s5 r) "timestamp"))))
  (r, s6)

/-- compute_realized_prices_uniswap_v3 as a store action. -/
def compute_realized_prices_uniswap_v3_st (r : Ref) (s0 : Store) : Ref × Store :=
  let s2 := astype_float_col (astype_float_col s0 r "amount0") r "amount1"
  let a0 := asFloats (getColD (readRef s2 r) "amount0")
  let a1 := asFloats (getColD (readRef s2 r) "amount1")
  let rp := (List.range a0.length).map fun k =>
    realized_price_uniswap_v3 (a0.getD k 0) (a1.getD k 0)
  let s3 := writeRef s2 r (setCol (readRef s2 r) "realized_price"
    (ColVal.floats rp))
  let s4 := writeRef s3 r (setCol (readRef s3 r) "timestamp_dt"
    (ColVal.datetimes (asInts (getColD (readRef s3 r) "timestamp"))))
  (r, s4)

/-- compute_realized_prices_cowswap as a store action. -/
def compute_realized_prices_cowswap_st (r : Ref) (s0 : Store) : Ref × Store :=
  let s2 := astype_float_col (astype_float_col s0 r "sellAmount") r "buyAmount"
  let sa := asFloats (getColD (readRef s2 r) "sellAmount")
  let ba := asFloats (getColD (readRef s2 r) "buyAmount")
  let rp := (List.range sa.length).map fun k =>
    realized_price_cowswap (sa.getD k 0) (ba.getD k 0)
  let s3 := writeRef s2 r (setCol (readRef s2 r) "realized_price"
    (ColVal.floats rp))
  let s4 := writeRef s3 r (setCol (readRef s3 r) "timestamp_dt"
    (ColVal.datetimes (asInts (getColD (readRef s3 r) "creationTimestamp"))))
  (r, s4)

/-- bucket_by_trade_size as a store action: assign the bucket column on
the frame behind `r`, then build a fresh grouped frame of intervals and
mean price differences, which is what the function returns. -/
def bucket_by_trade_size_st (r : Ref) (sizeCol : String) (n : ℕ) (s0 : Store) :
    Frame × Store :=
  let sizes := asFloats (getColD (readRef s0 r) sizeCol)
  let edges := qcutEdges sizes n
  let s1 := writeRef s0 r (setCol (readRef s0 r) "bucket"
    (ColVal.cats (sizes.map fun v => bucketIdx edges v)))
  let diffs := asFloats (getColD (readRef s1 r) "price_diff")
  let grouped : Frame :=
    [("bucket", ColVal.cats ((List.range (edges.length - 1)).map fun i => some i)),
     ("avg_cost_diff", ColVal.floatsOpt ((List.range (edges.length - 1)).map
       fun i => meanQ (((sizes.zip diffs).filter fun p =>
         bucketIdx edges p.1 = some i).map Prod.snd)))]
  (grouped, s1)

/-- C10: each normalizer returns the reference it was given, and
through that same reference the caller sees the added realized_price
and timestamp_dt columns and the amount columns recast to float; the
bucketizer adds the bucket column behind the reference of the caller; no
other frame in the store is touched. -/
theorem normalizers_mutate_frame_in_place :
    ∀ (s : Store) (r : Ref),
      ((compute_realized_prices_uniswap_v2_st r s).1 = r ∧
        hasCol (readRef (compute_realized_prices_uniswap_v2_st r s).2 r)
          "realized_price" = true ∧
        hasCol (readRef (compute_realized_prices_uniswap_v2_st r s).2 r)
          "timestamp_dt" = true ∧
        (∀ c ∈ ["amount0In", "amount0Out", "amount1In", "amount1Out"],
          ∃ xs, (readRef (compute_realized_prices_uniswap_v2_st r s).2 r).lookup c =
            some (ColVal.floats xs)) ∧
        (∀ r2, r2 ≠ r →
          readRef (compute_realized_prices_uniswap_v2_st r s).2 r2 = readRef s r2)) ∧
      ((compute_realized_prices_uniswap_v3_st r s).1 = r ∧
        hasCol (readRef (compute_realized_prices_uniswap_v3_st r s).2 r)
          "realized_price" = true ∧
        hasCol (readRef (compute_realized_prices_uniswap_v3_st r s).2 r)
          "timestamp_dt" = true ∧
        (∀ c ∈ ["amount0", "amount1"],
          ∃ xs, (readRef (compute_realized_prices_uniswap_v3_st r s).2 r).lookup c =
            some (ColVal.floats xs)) ∧
        (∀ r2, r2 ≠ r →
          readRef (compute_realized_prices_uniswap_v3_st r s).2 r2 = readRef s r2)) ∧
      ((compute_realized_prices_cowswap_st r s).1 = r ∧
        hasCol (readRef (compute_realized_prices_cowswap_st r s).2 r)
          "realized_price" = true ∧
        hasCol (readRef (compute_realized_prices_cowswap_st r s).2 r)
          "timestamp_dt" = true ∧
        (∀ c ∈ ["sellAmount", "buyAmount"],
          ∃ xs, (readRef (compute_realized_prices_cowswap_st r s).2 r).lookup c =
            some (ColVal.floats xs)) ∧
        (∀ r2, r2 ≠ r →
          readRef (compute_realized_prices_cowswap_st r s).2 r2 = readRef s r2)) ∧
      (hasCol (readRef (bucket_by_trade_size_st r "trade_size_usd" 10 s).2 r)
          "bucket" = true ∧
        (∀ r2, r2 ≠ r →
          readRef (bucket_by_trade_size_st r "trade_size_usd" 10 s).2 r2 =
            readRef s r2)) := by
  intro s r
  have hrw : ∀ (s2 : Store) (f : Frame), readRef (writeRef s2 r f) r = f := by
    intro s2 f
    simp [readRef, writeRef]
  refine ⟨⟨rfl, ?_, ?_, ?_, ?_⟩, ⟨rfl, ?_, ?_, ?_, ?_⟩,
    ⟨rfl, ?_, ?_, ?_, ?_⟩, ?_, ?_⟩
  · simp only [compute_realized_prices_uniswap_v2_st, astype_float_col, hrw]
    rfl
  · simp only [compute_realized_prices_uniswap_v2_st, astype_float_col, hrw]
    rfl
  · intro c hc
    fin_cases hc <;>
      · simp only [compute_realized_prices_uniswap_v2_st, astype_float_col, hrw]
        exact ⟨_, rfl⟩
  · intro r2 hne
    simp [compute_realized_prices_uniswap_v2_st, astype_float_col, writeRef,
      readRef, hne]
  · simp only [compute_realized_prices_uniswap_v3_st, astype_float_col, hrw]
    rfl
  · simp only [compute_realized_prices_uniswap_v3_st, astype_float_col, hrw]
    rfl
  · intro c hc
    fin_cases hc <;>
      · simp only [compute_realized_prices_uniswap_v3_st, astype_float_col, hrw]
        exact ⟨_, rfl⟩
  · intro r2 hne
    simp [compute_realized_prices_uniswap_v3_st, astype_float_col, writeRef,
      readRef, hne]
  · simp only [compute_realized_prices_cowswap_st, astype_float_col, hrw]
    rfl
  · simp only [compute_realized_prices_cowswap_st, astype_float_col, hrw]
    rfl
  · intro c hc
    fin_cases hc <;>
      · simp only [compute_realized_prices_cowswap_st, astype_float_col, hrw]
        exact ⟨_, rfl⟩
  · intro r2 hne
    simp [compute_realized_prices_cowswap_st, astype_float_col, writeRef,
      readRef, hne]
  · simp only [bucket_by_trade_size_st, hrw]
    rfl
  · intro r2 hne
    simp [bucket_by_trade_size_st, writeRef, readRef, hne]

/-- Witness for C10 at a one-frame store holding an empty frame. -/
theorem normalizers_mutate_frame_in_place_witness :
    hasCol (readRef (compute_realized_prices_uniswap_v2_st 0
      (fun _ => [])).2 0) "realized_price" = true ∧
    (∃ xs, (readRef (compute_realized_prices_uniswap_v2_st 0
      (fun _ => [])).2 0).lookup "amount0In" = some (ColVal.floats xs)) ∧
    readRef (compute_realized_prices_uniswap_v2_st 0 (fun _ => [])).2 1 = [] :=
  ⟨((normalizers_mutate_frame_in_place (fun _ => []) 0).1).2.1,
   ((normalizers_mutate_frame_in_place (fun _ => []) 0).1).2.2.2.1
     "amount0In" (by simp),
   ((normalizers_mutate_frame_in_place (fun _ => []) 0).1).2.2.2.2 1
     (by norm_num)⟩

end Hackathon
